import Mathlib

/- Verification of the geometry-evaluation core of the evolving-art-gui
repository: a shallow embedding of src/rendering/geometry_utils.py and of
the evolution entry point of src/population_manager/backend_adapter.py.

The planar-geometry substrate (shapely) is external to the repository; it
is embedded as an abstract structure of possibly-failing operations over
geometry values carrying a type tag, an extensional point set modelled as
a finite set, a validity flag, and one level of collection members.  A
raw operation returning none models a raised exception.  The predicate
Exact states the substrate-correctness assumption the specification makes
in section 6 (set-theoretic results, no failures, clean outputs). -/

namespace Art

/-- Geometry type tag of the substrate, mirroring the geom_type strings the
code inspects: Polygon, MultiPolygon, GeometryCollection, anything else. -/
inductive GType where
  | polygon
  | multiPolygon
  | collection
  | other
deriving DecidableEq, Repr

/-- Abstract geometry value of the substrate: type tag, extensional point
set (finite abstraction of the planar region), validity flag, and the
member list of a GeometryCollection (type tag and point set of each
member, the only member data the code reads). -/
structure Geom where
  gtype : GType
  pts : Finset ℕ
  valid : Bool
  members : List (GType × Finset ℕ)
deriving DecidableEq

/-- The is_empty property of a geometry: its point set is empty. -/
def Geom.isEmpty (g : Geom) : Bool := g.pts = ∅

/-- The value Polygon() used by the code as the canonical empty region. -/
def emptyPolygon : Geom := ⟨GType.polygon, ∅, true, []⟩

/-- Whether a geometry type tag is Polygon or MultiPolygon, the test
written in the code as geom_type in [Polygon, MultiPolygon]. -/
def polygonal (t : GType) : Bool := t = GType.polygon ∨ t = GType.multiPolygon

/-- The external geometry substrate as consumed by geometry_utils.py.
Each operation that the code wraps in try/except is modelled as returning
an Option, with none standing for a raised exception. -/
structure Substrate where
  inter : Geom → Geom → Option Geom
  diff : Geom → Geom → Option Geom
  buffer0 : Geom → Option Geom
  unaryUnion : List Geom → Option Geom
  unaryUnionParts : List (GType × Finset ℕ) → Option Geom
  scale : Geom → ℚ → ℚ → Option Geom
  rotate : Geom → ℚ → Option Geom
  translate : Geom → ℚ → ℚ → Option Geom
  diskBase : Geom
  squareBase : Geom
  mkPolygon : List (ℚ × ℚ) → Option Geom

/-- Embedding of fix_geom (geometry_utils.py lines 13-46).  The input is an
Option so that the None input accepted by the python function is covered.
The function is total by construction, mirroring that every risky call in
the source is wrapped in try/except returning Polygon(). -/
def fix_geom (S : Substrate) : Option Geom → Geom
  | none => emptyPolygon
  | some g0 =>
    if g0.isEmpty then emptyPolygon
    else if g0.valid ∧ polygonal g0.gtype ∧ ¬ g0.isEmpty then g0
    else
      match S.buffer0 g0 with
      | none => emptyPolygon
      | some repaired =>
        if repaired.isEmpty then emptyPolygon
        else if polygonal repaired.gtype then
          (if ¬ repaired.isEmpty then repaired else emptyPolygon)
        else if repaired.gtype = GType.collection then
          (let polys := repaired.members.filter (fun m => polygonal m.1)
           if polys = [] then emptyPolygon
           else
             match S.unaryUnionParts polys with
             | none => emptyPolygon
             | some u => u)
        else emptyPolygon

/-- Embedding of safe_intersection (geometry_utils.py lines 49-62). -/
def safe_intersection (S : Substrate) (a b : Geom) : Geom :=
  if a.isEmpty ∨ b.isEmpty then emptyPolygon
  else
    match S.inter a b with
    | some res => fix_geom S (some res)
    | none =>
      match S.inter (fix_geom S (some a)) (fix_geom S (some b)) with
      | some res => fix_geom S (some res)
      | none => emptyPolygon

/-- Embedding of safe_difference (geometry_utils.py lines 65-80). -/
def safe_difference (S : Substrate) (a b : Geom) : Geom :=
  if a.isEmpty then emptyPolygon
  else if b.isEmpty then a
  else
    match S.diff a b with
    | some res => fix_geom S (some res)
    | none =>
      match S.diff (fix_geom S (some a)) (fix_geom S (some b)) with
      | some res => fix_geom S (some res)
      | none => a

/-- Kind of a primitive gene; the spec fixes the closed set
disk, square, polygon, and the code raises on anything else. -/
inductive GeneKind where
  | disk
  | square
  | polygon
deriving DecidableEq, Repr

/-- Affine transform parameters of a primitive gene: anisotropic scale,
rotation angle in radians, translation. -/
structure TransformParams where
  sx : ℚ
  sy : ℚ
  theta : ℚ
  dx : ℚ
  dy : ℚ
deriving DecidableEq, Repr

/-- Three-channel color value. -/
abbrev Color := ℚ × ℚ × ℚ

/-- Leaf shape descriptor, per the data model of the spec (section 3) and
the fields read by gene_to_shapely. -/
structure PrimitiveGene where
  kind : GeneKind
  polygon_vertices : List (ℚ × ℚ)
  transform : TransformParams
  color_rgb : Color
deriving DecidableEq, Repr

/-- Embedding of gene_to_shapely (geometry_utils.py lines 83-107): build
the canonical base shape per kind (a failing polygon constructor yields
the empty region), repair the base once, then apply scale, rotation and
translation inside a single failure guard (any failure yields the empty
region), and finally repair the transformed result once. -/
def gene_to_shapely (S : Substrate) (gene : PrimitiveGene) : Geom :=
  match
    (match gene.kind with
     | GeneKind.disk => some S.diskBase
     | GeneKind.square => some S.squareBase
     | GeneKind.polygon => S.mkPolygon gene.polygon_vertices) with
  | none => emptyPolygon
  | some b =>
    let base := fix_geom S (some b)
    let t := gene.transform
    match S.scale base t.sx t.sy with
    | none => emptyPolygon
    | some g1 =>
      match S.rotate g1 t.theta with
      | none => emptyPolygon
      | some g2 =>
        match S.translate g2 t.dx t.dy with
        | none => emptyPolygon
        | some g3 => fix_geom S (some g3)

/-- Modelled from the spec: ColorAlgebra lives in src/core/shapes/geometry.py,
which is not among the sources; the spec (section 4.2) fixes only that
or_color and and_color are pure deterministic two-argument functions on
colors, so the algebra is kept as an abstract pair of functions. -/
structure ColorAlgebra where
  or_color : Color → Color → Color
  and_color : Color → Color → Color

/-- Operator kind of an internal genome node, per the spec (section 3). -/
inductive OpKind where
  | union
  | intersection
  | difference
deriving DecidableEq, Repr

/-- Modelled from the spec: PrimitiveNode and OpNode live in
src/core/evolution/genome.py, which is not among the sources; the spec
(section 3) describes a tree of primitive leaves and operator nodes with
an ordered child list, which is all process_node consumes. -/
inductive GNode where
  | prim (gene : PrimitiveGene)
  | op (kind : OpKind) (children : List GNode)
deriving Repr

/-- Blend mode tag of the internal shatter helper; the code compares the
string parameter against "or" and "and" with a fallthrough branch. -/
inductive BlendMode where
  | orMode
  | andMode
  | otherMode
deriving DecidableEq, Repr

/-- Blended color selection of _shatter_and_blend_with_color_alg
(geometry_utils.py lines 220-225): the if/elif/else on blend_mode. -/
def blend_color (CA : ColorAlgebra) (bm : BlendMode)
    (exist_color new_color : Color) : Color :=
  match bm with
  | BlendMode.orMode => CA.or_color exist_color new_color
  | BlendMode.andMode => CA.and_color exist_color new_color
  | BlendMode.otherMode => new_color

/-- One iteration of the loop body of _shatter_and_blend_with_color_alg
(geometry_utils.py lines 206-233).  The loop state is the pair
(next_gen_patches, shape_to_add); the loop runs over existing_patches. -/
def shatter_step (S : Substrate) (CA : ColorAlgebra) (new_color : Color)
    (bm : BlendMode) (st : List (Geom × Color) × Geom) (p : Geom × Color) :
    List (Geom × Color) × Geom :=
  let next_gen := st.1
  let shape_to_add := st.2
  let exist_geom := p.1
  let exist_color := p.2
  if shape_to_add.isEmpty then (next_gen ++ [(exist_geom, exist_color)], shape_to_add)
  else
    let overlap := safe_intersection S exist_geom shape_to_add
    if overlap.isEmpty then (next_gen ++ [(exist_geom, exist_color)], shape_to_add)
    else
      let exist_non_overlap := safe_difference S exist_geom shape_to_add
      let acc1 :=
        if ¬ exist_non_overlap.isEmpty then next_gen ++ [(exist_non_overlap, exist_color)]
        else next_gen
      let acc2 :=
        if ¬ overlap.isEmpty then acc1 ++ [(overlap, blend_color CA bm exist_color new_color)]
        else acc1
      (acc2, safe_difference S shape_to_add exist_geom)

/-- Embedding of _shatter_and_blend_with_color_alg (geometry_utils.py
lines 188-238): repair the incoming geometry, return the existing patches
unchanged when it is empty, otherwise fold the loop body over the existing
patches and append whatever remains of the incoming shape if non-empty. -/
def shatter_and_blend_with_color_alg (S : Substrate) (CA : ColorAlgebra)
    (existing_patches : List (Geom × Color)) (new_geom : Geom)
    (new_color : Color) (bm : BlendMode) : List (Geom × Color) :=
  let shape_to_add := fix_geom S (some new_geom)
  if shape_to_add.isEmpty then existing_patches
  else
    let res := existing_patches.foldl (shatter_step S CA new_color bm) ([], shape_to_add)
    if ¬ res.2.isEmpty then res.1 ++ [(res.2, new_color)] else res.1

mutual

/-- Embedding of process_node (geometry_utils.py lines 110-185):
recursively evaluate a genome node into an ordered list of
(geometry, color) pieces. -/
def process_node (S : Substrate) (CA : ColorAlgebra) : GNode → List (Geom × Color)
  | GNode.prim gene =>
    let geom := gene_to_shapely S gene
    if geom.isEmpty then [] else [(geom, gene.color_rgb)]
  | GNode.op kind children =>
    let children_results := (process_children S CA children).filter (fun r => r ≠ [])
    match children_results with
    | [] => []
    | first :: rest =>
      match kind with
      | OpKind.union =>
        rest.foldl (fun current_patches next_child_list =>
          next_child_list.foldl (fun cp p =>
            shatter_and_blend_with_color_alg S CA cp p.1 p.2 BlendMode.orMode)
            current_patches) first
      | OpKind.intersection =>
        rest.foldl (fun current_shapes next_child_list =>
          current_shapes.flatMap (fun pa =>
            next_child_list.filterMap (fun pb =>
              let inter := safe_intersection S pa.1 pb.1
              if inter.isEmpty then none
              else some (inter, CA.and_color pa.2 pb.2)))) first
      | OpKind.difference =>
        let subtractors := rest.flatMap (fun child_list =>
          child_list.filterMap (fun p => if p.1.isEmpty then none else some p.1))
        if subtractors = [] then first
        else
          match S.unaryUnion subtractors with
          | none => first
          | some tu =>
            let total_subtractor := fix_geom S (some tu)
            if total_subtractor.isEmpty then first
            else
              first.filterMap (fun pa =>
                let d := safe_difference S pa.1 total_subtractor
                if d.isEmpty then none else some (d, pa.2))

/-- Child-list evaluation of process_node: the per-child recursive calls
of geometry_utils.py lines 127-131, before the non-empty filter. -/
def process_children (S : Substrate) (CA : ColorAlgebra) : List GNode → List (List (Geom × Color))
  | [] => []
  | c :: cs => process_node S CA c :: process_children S CA cs

end

/-! Substrate correctness.  Section 6 of the spec assumes the geometry
substrate itself is correct; the predicate Exact fixes that assumption:
the binary set operations and unions never raise, compute the
set-theoretic result on point sets, and return valid polygonal values. -/

/-- A geometry value is clean when it is valid and polygonal, the shape of
every result a correct substrate hands back. -/
def Clean (g : Geom) : Prop := g.valid = true ∧ polygonal g.gtype = true

/-- Union of the point sets of a list of geometries. -/
def unionPts (l : List Geom) : Finset ℕ := l.foldr (fun g acc => g.pts ∪ acc) ∅

/-- Correctness assumption on the substrate (spec section 6): raw
intersection, difference, zero-width buffer and unary union never fail,
produce clean values, and compute the expected point sets. -/
structure Exact (S : Substrate) : Prop where
  inter_eq : ∀ a b r, S.inter a b = some r → Clean r ∧ r.pts = a.pts ∩ b.pts
  inter_some : ∀ a b, (S.inter a b).isSome
  diff_eq : ∀ a b r, S.diff a b = some r → Clean r ∧ r.pts = a.pts \ b.pts
  diff_some : ∀ a b, (S.diff a b).isSome
  buffer_eq : ∀ g r, S.buffer0 g = some r → Clean r ∧ r.pts = g.pts
  buffer_some : ∀ g, (S.buffer0 g).isSome
  uu_eq : ∀ l r, S.unaryUnion l = some r → Clean r ∧ r.pts = unionPts l
  uu_some : ∀ l, (S.unaryUnion l).isSome

/-! Spec-side reference algorithms.  These definitions are written from
the wording of the specification, to be compared with the embedded code. -/

/-- Projection of a piece list to its observable content: the point set of
each region together with its color. -/
def piecePts (l : List (Geom × Color)) : List (Finset ℕ × Color) :=
  l.map (fun p => (p.1.pts, p.2))

/-- One step of the union fold as worded in spec section 4.3: compute the
overlap of the existing piece with the incoming region; if empty keep the
existing piece; otherwise keep the existing piece minus the overlap when
non-empty, record the overlap with the blended color, and shrink the
incoming region by the existing piece. -/
def spec_shatter_step (orc : Color → Color → Color) (color_b : Color)
    (st : List (Finset ℕ × Color) × Finset ℕ) (pa : Finset ℕ × Color) :
    List (Finset ℕ × Color) × Finset ℕ :=
  let overlap := pa.1 ∩ st.2
  if overlap = ∅ then (st.1 ++ [pa], st.2)
  else
    let surviving := pa.1 \ overlap
    let acc1 := if surviving ≠ ∅ then st.1 ++ [(surviving, pa.2)] else st.1
    (acc1 ++ [(overlap, orc pa.2 color_b)], st.2 \ pa.1)

/-- The shatter-and-blend union fold step as worded in spec section 4.3,
for one incoming (region, color) pair against an accumulator partition:
after comparing against all existing pieces, whatever remains of the
incoming region (if non-empty) is appended with its original color. -/
def spec_shatter (orc : Color → Color → Color) (P : List (Finset ℕ × Color))
    (region_b : Finset ℕ) (color_b : Color) : List (Finset ℕ × Color) :=
  let res := P.foldl (spec_shatter_step orc color_b) ([], region_b)
  if res.2 ≠ ∅ then res.1 ++ [(res.2, color_b)] else res.1

/-- One step of the intersection fold as worded in spec section 4.3: the
new accumulator is the cross-product of pairwise intersections over all
non-empty pairs, colored with and_color; empty pairs are dropped. -/
def spec_intersection_step (andc : Color → Color → Color)
    (acc next : List (Finset ℕ × Color)) : List (Finset ℕ × Color) :=
  acc.flatMap (fun pa =>
    next.filterMap (fun pb =>
      if pa.1 ∩ pb.1 = ∅ then none else some (pa.1 ∩ pb.1, andc pa.2 pb.2)))

/-- The intersection evaluation as worded in spec section 4.3: fold the
pairwise cross-product step, starting from the first partition. -/
def spec_intersection (andc : Color → Color → Color)
    (parts : List (List (Finset ℕ × Color))) : List (Finset ℕ × Color) :=
  match parts with
  | [] => []
  | first :: rest => rest.foldl (spec_intersection_step andc) first

/-- The difference evaluation as worded in spec section 4.3 applied to a
list of partitions: subtract from each piece of the first partition the
plain union of all regions of the remaining partitions, dropping pieces
that become empty and leaving colors unchanged. -/
def spec_difference (parts : List (List (Finset ℕ × Color))) :
    List (Finset ℕ × Color) :=
  match parts with
  | [] => []
  | first :: rest =>
    let subtrahend := (rest.flatMap id).foldr (fun p acc => p.1 ∪ acc) ∅
    first.filterMap (fun pa =>
      if pa.1 \ subtrahend = ∅ then none else some (pa.1 \ subtrahend, pa.2))

/-- Claim C3 reads the difference evaluation as taking the minuend from
the FIRST CHILD of the operator node (not from the first child with a
non-empty result): the spec-side evaluation applied to the unfiltered
child partitions. -/
def claim_difference_eval (S : Substrate) (CA : ColorAlgebra)
    (children : List GNode) : List (Finset ℕ × Color) :=
  spec_difference ((children.map (process_node S CA)).map piecePts)

/-- Claim C7 reads gene_to_shapely as wrapping each of the three transform
steps individually with the repair pass: repair after scale, after
rotation and after translation. -/
def claim_gene_to_shapely (S : Substrate) (gene : PrimitiveGene) : Geom :=
  match
    (match gene.kind with
     | GeneKind.disk => some S.diskBase
     | GeneKind.square => some S.squareBase
     | GeneKind.polygon => S.mkPolygon gene.polygon_vertices) with
  | none => emptyPolygon
  | some b =>
    let base := fix_geom S (some b)
    let t := gene.transform
    match S.scale base t.sx t.sy with
    | none => emptyPolygon
    | some g1 =>
      match S.rotate (fix_geom S (some g1)) t.theta with
      | none => emptyPolygon
      | some g2 =>
        match S.translate (fix_geom S (some g2)) t.dx t.dy with
        | none => emptyPolygon
        | some g3 => fix_geom S (some g3)

/-- Amended reading of gene_to_shapely: the three transform steps run
inside one failure guard (any failure yields the empty region) and a
single repair pass is applied to the final transformed result. -/
def amended_gene_to_shapely (S : Substrate) (gene : PrimitiveGene) : Geom :=
  match
    (match gene.kind with
     | GeneKind.disk => some S.diskBase
     | GeneKind.square => some S.squareBase
     | GeneKind.polygon => S.mkPolygon gene.polygon_vertices) with
  | none => emptyPolygon
  | some b =>
    let base := fix_geom S (some b)
    let t := gene.transform
    match (S.scale base t.sx t.sy).bind (fun g1 => S.rotate g1 t.theta)
        |>.bind (fun g2 => S.translate g2 t.dx t.dy) with
    | none => emptyPolygon
    | some g3 => fix_geom S (some g3)

/-! Population evolution entry point (claim C6).  BackendAdapter.evolve is
in the sources (backend_adapter.py lines 86-96); the PopulationStateManager
it delegates to is not, so the delegate is modelled from the spec. -/

/-- The InvalidSelection failure condition of spec section 4.6. -/
inductive EvolveError where
  | invalidSelection
deriving DecidableEq, Repr

/-- Modelled from the spec: PopulationStateManager.evolve lives in
src/population_manager/population_state_manager.py, which is not among
the sources.  Spec section 4.6: it requires selected_indices non-empty
with every index i satisfying i smaller than the population length, fails
with the InvalidSelection condition otherwise, and on success replaces the
population with offspring of the selected parents (the mutation engine is
abstracted as the reproduce argument). -/
def stateEvolve (reproduce : List GNode → Finset ℕ → List GNode)
    (population : List GNode) (selected_indices : Finset ℕ) :
    Except EvolveError (List GNode) :=
  if selected_indices = ∅ ∨ ∃ i ∈ selected_indices, ¬ i < population.length then
    Except.error EvolveError.invalidSelection
  else Except.ok (reproduce population selected_indices)

/-- In-memory state of BackendAdapter relevant to evolve: the population,
the generation counter and the preview image cache (keyed by generation
and index; the cached bytes are abstracted as a number). -/
structure BackendAdapter where
  population : List GNode
  generation : ℕ
  image_cache : List ((ℕ × ℕ) × ℕ)

/-- Embedding of BackendAdapter.evolve (backend_adapter.py lines 86-96):
drop cache entries older than two generations, delegate to the state
manager, and on success increment the generation counter by one.  The
returned pair is the adapter state after the call together with the
outcome (an error models the exception propagating to the caller). -/
def BackendAdapter.evolve (reproduce : List GNode → Finset ℕ → List GNode)
    (ad : BackendAdapter) (selected_indices : Finset ℕ) :
    BackendAdapter × Except EvolveError (List GNode) :=
  let cache := ad.image_cache.filter
    (fun kv => ¬ ((kv.1.1 : ℤ) < (ad.generation : ℤ) - 2))
  match stateEvolve reproduce ad.population selected_indices with
  | Except.error e => ({ ad with image_cache := cache }, Except.error e)
  | Except.ok newPop =>
    ({ population := newPop, generation := ad.generation + 1, image_cache := cache },
      Except.ok newPop)

/-! Concrete instances used by witnesses and counterexamples. -/

/-- A clean polygonal geometry with the given point set. -/
def mkClean (s : Finset ℕ) : Geom := ⟨GType.polygon, s, true, []⟩

/-- A concrete exact substrate: operations are total and compute the
set-theoretic results on point sets, returning clean polygons. -/
def S0 : Substrate where
  inter a b := some (mkClean (a.pts ∩ b.pts))
  diff a b := some (mkClean (a.pts \ b.pts))
  buffer0 g := some (mkClean g.pts)
  unaryUnion l := some (mkClean (unionPts l))
  unaryUnionParts l := some (mkClean (l.foldr (fun m acc => m.2 ∪ acc) ∅))
  scale g _ _ := some g
  rotate g _ := some g
  translate g _ _ := some g
  diskBase := mkClean {0, 1}
  squareBase := mkClean {1, 2}
  mkPolygon vs := if vs.length < 3 then some (mkClean ∅) else some (mkClean {3})

/-- A trivial concrete color algebra for witnesses. -/
def CA0 : ColorAlgebra where
  or_color a _ := a
  and_color _ b := b

/-- A substrate whose raw binary operations always raise, exercising the
fail-soft fallbacks. -/
def Sfail : Substrate :=
  { S0 with inter := fun _ _ => none, diff := fun _ _ => none }

/-- An invalid polygon value used by counterexamples. -/
def invalidX : Geom := ⟨GType.polygon, {1}, false, []⟩

/-- A clean polygon value with point set 2, the buffer repair output of
substrate S1. -/
def repairedY : Geom := mkClean {2}

/-- A substrate exhibiting the gap between per-step repair and the single
final repair of gene_to_shapely: scaling always produces the invalid
value, the buffer repair maps everything to repairedY, and rotation moves
a valid geometry to point set 3 while leaving invalid ones in place. -/
def S1 : Substrate :=
  { S0 with
    scale := fun _ _ _ => some invalidX
    buffer0 := fun _ => some repairedY
    rotate := fun g _ => if g.valid then some (mkClean {3}) else some g }

/-- A square primitive gene used by witnesses and counterexamples. -/
def squareGene : PrimitiveGene :=
  ⟨GeneKind.square, [], ⟨1, 1, 0, 0, 0⟩, (0, 1, 0)⟩

/-- A degenerate polygon gene (no vertices) evaluating to the empty
region. -/
def degenerateGene : PrimitiveGene :=
  ⟨GeneKind.polygon, [], ⟨1, 1, 0, 0, 0⟩, (1, 0, 0)⟩

/-- A disk primitive gene, overlapping the square gene in the S0
substrate (their point sets share the point 1). -/
def diskGene : PrimitiveGene :=
  ⟨GeneKind.disk, [], ⟨1, 1, 0, 0, 0⟩, (0, 0, 1)⟩

/-- Pairwise disjointness of the regions of a piece list: the partition
property of the spec, on point sets. -/
def PDisj (l : List (Geom × Color)) : Prop :=
  l.Pairwise (fun p q => p.1.pts ∩ q.1.pts = ∅)

/-- A concrete adapter state for witnesses: one individual, generation 5,
one cached preview. -/
def adapter0 : BackendAdapter := ⟨[GNode.prim squareGene], 5, [((0, 0), 7)]⟩

/-- A trivial reproduction function for witnesses (the spec-modelled
evolve is parametric in it). -/
def reproduce0 : List GNode → Finset ℕ → List GNode := fun pop _ => pop

/-! Basic lemmas about the embedded geometry helpers. -/

theorem isEmpty_iff {g : Geom} : g.isEmpty = true ↔ g.pts = ∅ := by
  simp [Geom.isEmpty]

theorem isEmpty_false_iff {g : Geom} : g.isEmpty = false ↔ g.pts ≠ ∅ := by
  simp [Geom.isEmpty]

theorem emptyPolygon_pts : emptyPolygon.pts = ∅ := rfl

theorem clean_emptyPolygon : Clean emptyPolygon := ⟨rfl, rfl⟩

theorem fix_geom_exact {S : Substrate} (hS : Exact S) (g : Geom) :
    Clean (fix_geom S (some g)) ∧ (fix_geom S (some g)).pts = g.pts := by
  by_cases he : g.isEmpty = true
  · simp only [fix_geom, he, if_true]
    exact ⟨clean_emptyPolygon, (isEmpty_iff.mp he).symm⟩
  · obtain ⟨r, hr⟩ := Option.isSome_iff_exists.mp (hS.buffer_some g)
    obtain ⟨⟨hrv, hrp⟩, hrpts⟩ := hS.buffer_eq g r hr
    by_cases hc : g.valid = true ∧ polygonal g.gtype = true ∧ ¬ g.isEmpty = true
    · simp only [fix_geom, if_neg he, if_pos hc]
      exact ⟨⟨hc.1, hc.2.1⟩, trivial⟩
    · simp only [fix_geom, if_neg he, if_neg hc, hr]
      by_cases hre : r.isEmpty = true
      · simp only [if_pos hre]
        refine ⟨clean_emptyPolygon, ?_⟩
        rw [emptyPolygon_pts, ← hrpts, isEmpty_iff.mp hre]
      · simp only [if_neg hre, if_pos hrp, if_pos hre]
        exact ⟨⟨hrv, hrp⟩, hrpts⟩

theorem safe_intersection_pts {S : Substrate} (hS : Exact S) (a b : Geom) :
    (safe_intersection S a b).pts = a.pts ∩ b.pts := by
  by_cases he : a.isEmpty = true ∨ b.isEmpty = true
  · simp only [safe_intersection, if_pos he, emptyPolygon_pts]
    rcases he with h | h
    · rw [isEmpty_iff.mp h, Finset.empty_inter]
    · rw [isEmpty_iff.mp h, Finset.inter_empty]
  · obtain ⟨r, hr⟩ := Option.isSome_iff_exists.mp (hS.inter_some a b)
    obtain ⟨_, hrpts⟩ := hS.inter_eq a b r hr
    simp only [safe_intersection, if_neg he, hr]
    rw [(fix_geom_exact hS r).2, hrpts]

theorem safe_difference_pts {S : Substrate} (hS : Exact S) (a b : Geom) :
    (safe_difference S a b).pts = a.pts \ b.pts := by
  by_cases ha : a.isEmpty = true
  · simp only [safe_difference, if_pos ha, emptyPolygon_pts]
    rw [isEmpty_iff.mp ha, Finset.empty_sdiff]
  · by_cases hb : b.isEmpty = true
    · simp only [safe_difference, if_neg ha, if_pos hb]
      rw [isEmpty_iff.mp hb, Finset.sdiff_empty]
    · obtain ⟨r, hr⟩ := Option.isSome_iff_exists.mp (hS.diff_some a b)
      obtain ⟨_, hrpts⟩ := hS.diff_eq a b r hr
      simp only [safe_difference, if_neg ha, if_neg hb, hr]
      rw [(fix_geom_exact hS r).2, hrpts]

theorem process_children_eq_map (S : Substrate) (CA : ColorAlgebra) :
    ∀ l : List GNode, process_children S CA l = l.map (process_node S CA) := by
  intro l
  induction l with
  | nil => rfl
  | cons c cs ih => simp [process_children, ih]

theorem piecePts_nil : piecePts [] = [] := rfl

theorem piecePts_cons (p : Geom × Color) (l : List (Geom × Color)) :
    piecePts (p :: l) = (p.1.pts, p.2) :: piecePts l := rfl

theorem piecePts_append (l1 l2 : List (Geom × Color)) :
    piecePts (l1 ++ l2) = piecePts l1 ++ piecePts l2 := by
  simp [piecePts]

theorem finset_sdiff_inter_cancel (a b : Finset ℕ) : a \ (a ∩ b) = a \ b := by
  ext x
  simp only [Finset.mem_sdiff, Finset.mem_inter]
  tauto

/-- Correspondence of one loop iteration of the embedded shatter step with
one step of the spec-side union fold, on observable content, under an
exact substrate. -/
theorem shatter_step_spec {S : Substrate} (hS : Exact S) (CA : ColorAlgebra)
    (c : Color) (acc : List (Geom × Color)) (shape : Geom) (p : Geom × Color) :
    piecePts (shatter_step S CA c BlendMode.orMode (acc, shape) p).1
        = (spec_shatter_step CA.or_color c (piecePts acc, shape.pts) (p.1.pts, p.2)).1
      ∧ (shatter_step S CA c BlendMode.orMode (acc, shape) p).2.pts
        = (spec_shatter_step CA.or_color c (piecePts acc, shape.pts) (p.1.pts, p.2)).2 := by
  have hipts := safe_intersection_pts hS p.1 shape
  by_cases hsh : shape.isEmpty = true
  · have hov : p.1.pts ∩ shape.pts = ∅ := by
      rw [isEmpty_iff.mp hsh, Finset.inter_empty]
    constructor
    · simp only [shatter_step, spec_shatter_step, if_pos hsh, if_pos hov,
        piecePts_append]
      rfl
    · simp only [shatter_step, spec_shatter_step, if_pos hsh, if_pos hov]
  · by_cases hov : (safe_intersection S p.1 shape).isEmpty = true
    · have hov2 : p.1.pts ∩ shape.pts = ∅ := by
        rw [← hipts]
        exact isEmpty_iff.mp hov
      constructor
      · simp only [shatter_step, spec_shatter_step, if_neg hsh, if_pos hov,
          if_pos hov2, piecePts_append]
        rfl
      · simp only [shatter_step, spec_shatter_step, if_neg hsh, if_pos hov, if_pos hov2]
    · have hov2 : ¬ p.1.pts ∩ shape.pts = ∅ := by
        rw [← hipts]
        exact fun h => hov (isEmpty_iff.mpr h)
      have hdpts := safe_difference_pts hS p.1 shape
      have hsurv : (safe_difference S p.1 shape).pts
          = p.1.pts \ (p.1.pts ∩ shape.pts) := by
        rw [hdpts, finset_sdiff_inter_cancel]
      have hspts := safe_difference_pts hS shape p.1
      by_cases hne : (safe_difference S p.1 shape).isEmpty = true
      · have hs0 : p.1.pts \ (p.1.pts ∩ shape.pts) = ∅ := by
          rw [← hsurv]
          exact isEmpty_iff.mp hne
        constructor
        · simp only [shatter_step, spec_shatter_step, if_neg hsh, if_neg hov,
            if_neg hov2, if_pos hne, hs0, ne_eq, not_true_eq_false,
            if_false, piecePts_append]
          simp [hne, hov, piecePts, hipts, blend_color]
        · simp only [shatter_step, spec_shatter_step, if_neg hsh, if_neg hov,
            if_neg hov2, hspts]
      · have hs1 : ¬ p.1.pts \ (p.1.pts ∩ shape.pts) = ∅ := by
          rw [← hsurv]
          exact fun h => hne (isEmpty_iff.mpr h)
        constructor
        · simp only [shatter_step, spec_shatter_step, if_neg hsh, if_neg hov,
            if_neg hov2, hne, hs1, ne_eq, not_false_eq_true, if_pos,
            piecePts_append]
          simp [hov, piecePts, hipts, hdpts, hsurv, blend_color]
        · simp only [shatter_step, spec_shatter_step, if_neg hsh, if_neg hov,
            if_neg hov2, hspts]

/-- Correspondence of the whole shatter loop with the spec-side fold. -/
theorem shatter_loop_spec {S : Substrate} (hS : Exact S) (CA : ColorAlgebra)
    (c : Color) :
    ∀ (P acc : List (Geom × Color)) (shape : Geom),
      piecePts (P.foldl (shatter_step S CA c BlendMode.orMode) (acc, shape)).1
          = ((piecePts P).foldl (spec_shatter_step CA.or_color c)
              (piecePts acc, shape.pts)).1
        ∧ (P.foldl (shatter_step S CA c BlendMode.orMode) (acc, shape)).2.pts
          = ((piecePts P).foldl (spec_shatter_step CA.or_color c)
              (piecePts acc, shape.pts)).2 := by
  intro P
  induction P with
  | nil =>
    intro acc shape
    exact ⟨rfl, rfl⟩
  | cons p P ih =>
    intro acc shape
    rw [piecePts_cons, List.foldl_cons, List.foldl_cons]
    obtain ⟨h1, h2⟩ := shatter_step_spec hS CA c acc shape p
    have hrec := ih (shatter_step S CA c BlendMode.orMode (acc, shape) p).1
      (shatter_step S CA c BlendMode.orMode (acc, shape) p).2
    rw [h1, h2] at hrec
    exact hrec

/-- The spec-side fold with an already-empty incoming region keeps every
existing piece unchanged and leaves the region empty. -/
theorem spec_shatter_empty_region (orc : Color → Color → Color) (c : Color) :
    ∀ (P acc : List (Finset ℕ × Color)),
      P.foldl (spec_shatter_step orc c) (acc, (∅ : Finset ℕ)) = (acc ++ P, ∅) := by
  intro P
  induction P with
  | nil =>
    intro acc
    simp
  | cons p P ih =>
    intro acc
    rw [List.foldl_cons]
    have hov : p.1 ∩ (∅ : Finset ℕ) = ∅ := Finset.inter_empty _
    simp only [spec_shatter_step, if_pos hov]
    rw [ih]
    simp

/-- C2: the union fold step of the code follows the shatter-and-blend
algorithm as worded in the spec exactly: under a correct substrate, for an
accumulator partition and one incoming (region, color) pair, every
existing piece whose overlap with the incoming region is empty is kept
unchanged; otherwise the existing piece minus the overlap survives (if
non-empty) with its own color, the overlap is recorded with the or-blended
color, the incoming region is shrunk by the existing piece before later
comparisons, and after the loop any non-empty remainder of the incoming
region is appended with its original color. -/
theorem union_fold_matches_spec {S : Substrate} (hS : Exact S)
    (CA : ColorAlgebra) (P : List (Geom × Color)) (g : Geom) (c : Color) :
    piecePts (shatter_and_blend_with_color_alg S CA P g c BlendMode.orMode)
      = spec_shatter CA.or_color (piecePts P) g.pts c := by
  obtain ⟨hclean, hpts⟩ := fix_geom_exact hS g
  by_cases he : (fix_geom S (some g)).isEmpty = true
  · have hg : g.pts = ∅ := by
      rw [← hpts]
      exact isEmpty_iff.mp he
    simp only [shatter_and_blend_with_color_alg, if_pos he, spec_shatter, hg,
      spec_shatter_empty_region]
    simp
  · have hg : ¬ g.pts = ∅ := by
      rw [← hpts]
      exact fun h => he (isEmpty_iff.mpr h)
    simp only [shatter_and_blend_with_color_alg, if_neg he, spec_shatter]
    obtain ⟨h1, h2⟩ := shatter_loop_spec hS CA c P [] (fix_geom S (some g))
    rw [hpts] at h1 h2
    simp only [piecePts_nil] at h1 h2
    by_cases hf : (P.foldl (shatter_step S CA c BlendMode.orMode)
        ([], fix_geom S (some g))).2.isEmpty = true
    · have hs : ((piecePts P).foldl (spec_shatter_step CA.or_color c)
          ([], g.pts)).2 = ∅ := by
        rw [← h2]
        exact isEmpty_iff.mp hf
      rw [if_neg (not_not_intro hf), if_neg (not_not_intro hs)]
      exact h1
    · have hs : ¬ ((piecePts P).foldl (spec_shatter_step CA.or_color c)
          ([], g.pts)).2 = ∅ := by
        rw [← h2]
        exact fun h => hf (isEmpty_iff.mpr h)
      rw [if_pos hf, if_pos hs, piecePts_append, h1]
      simp [piecePts, h2]

/-! Pairwise disjointness machinery for the partition invariant. -/

theorem finset_inter_empty_mono {a b x y : Finset ℕ} (hx : x ⊆ a) (hy : y ⊆ b)
    (h : a ∩ b = ∅) : x ∩ y = ∅ := by
  have hsub := Finset.inter_subset_inter hx hy
  rw [h] at hsub
  exact Finset.subset_empty.mp hsub

theorem finset_inter_empty_comm {a b : Finset ℕ} (h : a ∩ b = ∅) : b ∩ a = ∅ := by
  rw [Finset.inter_comm]
  exact h

theorem finset_sdiff_inter_empty (a s : Finset ℕ) : (a \ s) ∩ (a ∩ s) = ∅ := by
  ext x
  simp only [Finset.mem_inter, Finset.mem_sdiff, Finset.not_mem_empty, iff_false]
  tauto

theorem finset_sdiff_sdiff_empty (a s : Finset ℕ) : (a \ s) ∩ (s \ a) = ∅ := by
  ext x
  simp only [Finset.mem_inter, Finset.mem_sdiff, Finset.not_mem_empty, iff_false]
  tauto

theorem finset_inter_sdiff_empty (a s : Finset ℕ) : (a ∩ s) ∩ (s \ a) = ∅ := by
  ext x
  simp only [Finset.mem_inter, Finset.mem_sdiff, Finset.not_mem_empty, iff_false]
  tauto

theorem finset_inter_sdiff_self_empty (a s : Finset ℕ) : a ∩ (s \ a) = ∅ := by
  ext x
  simp only [Finset.mem_inter, Finset.mem_sdiff, Finset.not_mem_empty, iff_false]
  tauto

theorem pdisj_append_singleton {l : List (Geom × Color)} {x : Geom × Color}
    (h : PDisj l) (hx : ∀ p ∈ l, p.1.pts ∩ x.1.pts = ∅) : PDisj (l ++ [x]) := by
  rw [PDisj, List.pairwise_append]
  exact ⟨h, List.pairwise_singleton _ _, fun p hp q hq => by
    rw [List.mem_singleton] at hq
    subst hq
    exact hx p hp⟩

/-- Invariant of the shatter loop under an exact substrate: starting from
a pairwise-disjoint accumulator that is disjoint from the remaining
patches and from the incoming shape, the loop keeps the accumulator
pairwise disjoint and disjoint from the final remaining shape, provided
the patch list itself is pairwise disjoint. -/
theorem shatter_loop_pdisj {S : Substrate} (hS : Exact S) (CA : ColorAlgebra)
    (c : Color) (bm : BlendMode) :
    ∀ (P acc : List (Geom × Color)) (shape : Geom),
      PDisj acc → PDisj P →
      (∀ p ∈ acc, ∀ q ∈ P, p.1.pts ∩ q.1.pts = ∅) →
      (∀ p ∈ acc, p.1.pts ∩ shape.pts = ∅) →
      PDisj (P.foldl (shatter_step S CA c bm) (acc, shape)).1
        ∧ ∀ p ∈ (P.foldl (shatter_step S CA c bm) (acc, shape)).1,
            p.1.pts ∩ (P.foldl (shatter_step S CA c bm) (acc, shape)).2.pts = ∅ := by
  intro P
  induction P with
  | nil =>
    intro acc shape h1 _ _ h4
    exact ⟨h1, h4⟩
  | cons a P ih =>
    intro acc shape h1 h2 h3 h4
    rw [List.foldl_cons]
    rw [PDisj, List.pairwise_cons] at h2
    obtain ⟨ha, h2t⟩ := h2
    have h3head : ∀ p ∈ acc, p.1.pts ∩ a.1.pts = ∅ := fun p hp =>
      h3 p hp a (List.mem_cons_self a P)
    have h3tail : ∀ p ∈ acc, ∀ q ∈ P, p.1.pts ∩ q.1.pts = ∅ := fun p hp q hq =>
      h3 p hp q (List.mem_cons_of_mem a hq)
    by_cases hsh : shape.isEmpty = true
    · have hstep : shatter_step S CA c bm (acc, shape) a = (acc ++ [a], shape) := by
        simp only [shatter_step, if_pos hsh]
      rw [hstep]
      refine ih (acc ++ [a]) shape (pdisj_append_singleton h1 h3head) h2t ?_ ?_
      · intro p hp q hq
        rcases List.mem_append.mp hp with hp2 | hp2
        · exact h3tail p hp2 q hq
        · rw [List.mem_singleton] at hp2
          subst hp2
          exact ha q hq
      · intro p hp
        rcases List.mem_append.mp hp with hp2 | hp2
        · exact h4 p hp2
        · rw [List.mem_singleton] at hp2
          subst hp2
          rw [isEmpty_iff.mp hsh, Finset.inter_empty]
    · have hipts := safe_intersection_pts hS a.1 shape
      by_cases hov : (safe_intersection S a.1 shape).isEmpty = true
      · have hov2 : a.1.pts ∩ shape.pts = ∅ := by
          rw [← hipts]
          exact isEmpty_iff.mp hov
        have hstep : shatter_step S CA c bm (acc, shape) a = (acc ++ [a], shape) := by
          simp only [shatter_step, if_neg hsh, if_pos hov]
        rw [hstep]
        refine ih (acc ++ [a]) shape (pdisj_append_singleton h1 h3head) h2t ?_ ?_
        · intro p hp q hq
          rcases List.mem_append.mp hp with hp2 | hp2
          · exact h3tail p hp2 q hq
          · rw [List.mem_singleton] at hp2
            subst hp2
            exact ha q hq
        · intro p hp
          rcases List.mem_append.mp hp with hp2 | hp2
          · exact h4 p hp2
          · rw [List.mem_singleton] at hp2
            subst hp2
            exact hov2
      · have hdpts := safe_difference_pts hS a.1 shape
        have hspts := safe_difference_pts hS shape a.1
        by_cases hne : (safe_difference S a.1 shape).isEmpty = true
        · have hstep : shatter_step S CA c bm (acc, shape) a
              = (acc ++ [(safe_intersection S a.1 shape, blend_color CA bm a.2 c)],
                 safe_difference S shape a.1) := by
            simp only [shatter_step, if_neg hsh, if_neg hov, if_pos hne,
              not_true_eq_false, if_false, if_pos hov]
            simp [hne, hov]
          rw [hstep]
          have hxsub : (safe_intersection S a.1 shape).pts ⊆ a.1.pts := by
            rw [hipts]
            exact Finset.inter_subset_left
          refine ih _ _ (pdisj_append_singleton h1 ?_) h2t ?_ ?_
          · intro p hp
            exact finset_inter_empty_mono (Finset.Subset.refl _) hxsub (h3head p hp)
          · intro p hp q hq
            rcases List.mem_append.mp hp with hp2 | hp2
            · exact h3tail p hp2 q hq
            · rw [List.mem_singleton] at hp2
              subst hp2
              exact finset_inter_empty_mono hxsub (Finset.Subset.refl _) (ha q hq)
          · intro p hp
            rcases List.mem_append.mp hp with hp2 | hp2
            · rw [hspts]
              exact finset_inter_empty_mono (Finset.Subset.refl _)
                Finset.sdiff_subset (h4 p hp2)
            · rw [List.mem_singleton] at hp2
              subst hp2
              rw [hipts, hspts]
              exact finset_inter_sdiff_empty a.1.pts shape.pts
        · have hstep : shatter_step S CA c bm (acc, shape) a
              = ((acc ++ [(safe_difference S a.1 shape, a.2)])
                  ++ [(safe_intersection S a.1 shape, blend_color CA bm a.2 c)],
                 safe_difference S shape a.1) := by
            simp only [shatter_step, if_neg hsh, if_neg hov]
            simp [hne, hov]
          rw [hstep]
          have hxsub : (safe_intersection S a.1 shape).pts ⊆ a.1.pts := by
            rw [hipts]
            exact Finset.inter_subset_left
          have hdsub : (safe_difference S a.1 shape).pts ⊆ a.1.pts := by
            rw [hdpts]
            exact Finset.sdiff_subset
          have hmem : ∀ p ∈ (acc ++ [(safe_difference S a.1 shape, a.2)])
              ++ [(safe_intersection S a.1 shape, blend_color CA bm a.2 c)],
              p ∈ acc ∨ p.1.pts ⊆ a.1.pts := by
            intro p hp
            rcases List.mem_append.mp hp with hp2 | hp2
            · rcases List.mem_append.mp hp2 with hp3 | hp3
              · exact Or.inl hp3
              · rw [List.mem_singleton] at hp3
                subst hp3
                exact Or.inr hdsub
            · rw [List.mem_singleton] at hp2
              subst hp2
              exact Or.inr hxsub
          have hacc2 : PDisj ((acc ++ [(safe_difference S a.1 shape, a.2)])
              ++ [(safe_intersection S a.1 shape, blend_color CA bm a.2 c)]) := by
            refine pdisj_append_singleton (pdisj_append_singleton h1 ?_) ?_
            · intro p hp
              exact finset_inter_empty_mono (Finset.Subset.refl _) hdsub (h3head p hp)
            · intro p hp
              rcases List.mem_append.mp hp with hp2 | hp2
              · exact finset_inter_empty_mono (Finset.Subset.refl _) hxsub (h3head p hp2)
              · rw [List.mem_singleton] at hp2
                subst hp2
                rw [hdpts, hipts]
                exact finset_sdiff_inter_empty a.1.pts shape.pts
          refine ih _ _ hacc2 h2t ?_ ?_
          · intro p hp q hq
            rcases hmem p hp with hp2 | hp2
            · exact h3tail p hp2 q hq
            · exact finset_inter_empty_mono hp2 (Finset.Subset.refl _) (ha q hq)
          · intro p hp
            rcases hmem p hp with hp2 | hp2
            · rw [hspts]
              exact finset_inter_empty_mono (Finset.Subset.refl _)
                Finset.sdiff_subset (h4 p hp2)
            · rw [hspts]
              exact finset_inter_empty_mono hp2 (Finset.Subset.refl _)
                (finset_inter_sdiff_self_empty a.1.pts shape.pts)

/-- The shatter-and-blend fold step preserves pairwise disjointness of the
accumulator partition under an exact substrate. -/
theorem shatter_pdisj {S : Substrate} (hS : Exact S) (CA : ColorAlgebra)
    (c : Color) (bm : BlendMode) (cur : List (Geom × Color)) (g : Geom)
    (h : PDisj cur) : PDisj (shatter_and_blend_with_color_alg S CA cur g c bm) := by
  simp only [shatter_and_blend_with_color_alg]
  by_cases he : (fix_geom S (some g)).isEmpty = true
  · rw [if_pos he]
    exact h
  · rw [if_neg he]
    obtain ⟨hp, hrem⟩ := shatter_loop_pdisj hS CA c bm cur [] (fix_geom S (some g))
      List.Pairwise.nil h (fun p hp => absurd hp (List.not_mem_nil p))
      (fun p hp => absurd hp (List.not_mem_nil p))
    by_cases hf : (cur.foldl (shatter_step S CA c bm) ([], fix_geom S (some g))).2.isEmpty = true
    · rw [if_neg (not_not_intro hf)]
      exact hp
    · rw [if_pos hf]
      exact pdisj_append_singleton hp hrem

theorem foldl_preserve {α β : Type} {P : α → Prop} {Q : β → Prop} {f : α → β → α}
    (hf : ∀ a b, P a → Q b → P (f a b)) :
    ∀ (l : List β) (a : α), P a → (∀ b ∈ l, Q b) → P (l.foldl f a) := by
  intro l
  induction l with
  | nil =>
    intro a ha _
    exact ha
  | cons b l ih =>
    intro a ha hq
    rw [List.foldl_cons]
    exact ih _ (hf a b ha (hq b (List.mem_cons_self b l)))
      (fun x hx => hq x (List.mem_cons_of_mem b hx))

/-- Every piece produced by one cross-product step of the intersection
branch lies inside its left factor and comes from a member of the right
partition. -/
theorem inter_piece_origin {S : Substrate} (hS : Exact S) (CA : ColorAlgebra)
    (pa : Geom × Color) (lst : List (Geom × Color)) :
    ∀ x ∈ lst.filterMap (fun pb =>
        let inter := safe_intersection S pa.1 pb.1
        if inter.isEmpty then none
        else some (inter, CA.and_color pa.2 pb.2)),
      ∃ pb ∈ lst, x.1.pts = pa.1.pts ∩ pb.1.pts := by
  intro x hx
  rw [List.mem_filterMap] at hx
  obtain ⟨pb, hpb, hfx⟩ := hx
  simp only at hfx
  by_cases hemp : (safe_intersection S pa.1 pb.1).isEmpty = true
  · rw [if_pos hemp] at hfx
    exact absurd hfx (by simp)
  · rw [if_neg hemp] at hfx
    refine ⟨pb, hpb, ?_⟩
    rw [← Option.some_inj.mp hfx]
    exact safe_intersection_pts hS pa.1 pb.1

/-- Inversion of one emitted piece of the intersection cross-product: the
piece is the safe intersection of the two factors. -/
theorem inter_piece_eq {S : Substrate} {CA : ColorAlgebra} {pa pb x : Geom × Color}
    (hx : (let inter := safe_intersection S pa.1 pb.1
           if inter.isEmpty then none
           else some (inter, CA.and_color pa.2 pb.2)) = some x) :
    x.1 = safe_intersection S pa.1 pb.1 := by
  simp only at hx
  by_cases hemp : (safe_intersection S pa.1 pb.1).isEmpty = true
  · rw [if_pos hemp] at hx
    exact absurd hx (by simp)
  · rw [if_neg hemp] at hx
    rw [← Option.some_inj.mp hx]

/-- One cross-product step of the intersection branch preserves pairwise
disjointness under an exact substrate, given that the incoming partition
is itself pairwise disjoint. -/
theorem inter_step_pdisj {S : Substrate} (hS : Exact S) (CA : ColorAlgebra)
    (cur lst : List (Geom × Color)) (hc : PDisj cur) (hl : PDisj lst) :
    PDisj (cur.flatMap (fun pa =>
      lst.filterMap (fun pb =>
        let inter := safe_intersection S pa.1 pb.1
        if inter.isEmpty then none
        else some (inter, CA.and_color pa.2 pb.2)))) := by
  rw [PDisj, List.flatMap_def, List.pairwise_flatten]
  constructor
  · intro l hl2
    rw [List.mem_map] at hl2
    obtain ⟨pa, _, hleq⟩ := hl2
    subst hleq
    rw [List.pairwise_filterMap]
    refine hl.imp ?_
    intro pb pb2 hpp x hx x2 hx2
    rw [Option.mem_def] at hx hx2
    rw [inter_piece_eq hx, inter_piece_eq hx2,
      safe_intersection_pts hS, safe_intersection_pts hS]
    exact finset_inter_empty_mono Finset.inter_subset_right
      Finset.inter_subset_right hpp
  · rw [List.pairwise_map]
    refine hc.imp ?_
    intro pa pa2 hpp x hx x2 hx2
    obtain ⟨pb, _, he⟩ := inter_piece_origin hS CA pa _ x hx
    obtain ⟨pb2, _, he2⟩ := inter_piece_origin hS CA pa2 _ x2 hx2
    rw [he, he2]
    exact finset_inter_empty_mono Finset.inter_subset_left
      Finset.inter_subset_left hpp

/-! Non-emptiness of emitted pieces (no substrate assumption needed: every
append in the code is guarded by an is_empty check). -/

theorem shatter_step_ne (S : Substrate) (CA : ColorAlgebra) (c : Color)
    (bm : BlendMode) (acc : List (Geom × Color)) (shape : Geom)
    (a : Geom × Color) (hacc : ∀ q ∈ acc, q.1.isEmpty = false)
    (ha : a.1.isEmpty = false) :
    ∀ q ∈ (shatter_step S CA c bm (acc, shape) a).1, q.1.isEmpty = false := by
  intro q hq
  simp only [shatter_step] at hq
  by_cases hsh : shape.isEmpty = true
  · rw [if_pos hsh] at hq
    rcases List.mem_append.mp hq with h | h
    · exact hacc q h
    · rw [List.mem_singleton] at h
      subst h
      exact ha
  · rw [if_neg hsh] at hq
    by_cases hov : (safe_intersection S a.1 shape).isEmpty = true
    · rw [if_pos hov] at hq
      rcases List.mem_append.mp hq with h | h
      · exact hacc q h
      · rw [List.mem_singleton] at h
        subst h
        exact ha
    · rw [if_neg hov, if_pos hov] at hq
      rcases List.mem_append.mp hq with h | h
      · by_cases hne : (safe_difference S a.1 shape).isEmpty = true
        · rw [if_neg (not_not_intro hne)] at h
          exact hacc q h
        · rw [if_pos hne] at h
          rcases List.mem_append.mp h with h2 | h2
          · exact hacc q h2
          · rw [List.mem_singleton] at h2
            subst h2
            exact Bool.eq_false_iff.mpr hne
      · rw [List.mem_singleton] at h
        subst h
        exact Bool.eq_false_iff.mpr hov

theorem shatter_loop_ne (S : Substrate) (CA : ColorAlgebra) (c : Color)
    (bm : BlendMode) :
    ∀ (P acc : List (Geom × Color)) (shape : Geom),
      (∀ q ∈ acc, q.1.isEmpty = false) →
      (∀ p ∈ P, p.1.isEmpty = false) →
      ∀ q ∈ (P.foldl (shatter_step S CA c bm) (acc, shape)).1,
        q.1.isEmpty = false := by
  intro P
  induction P with
  | nil =>
    intro acc shape hacc _
    exact hacc
  | cons a P ih =>
    intro acc shape hacc hP
    rw [List.foldl_cons]
    exact ih _ _
      (shatter_step_ne S CA c bm acc shape a hacc (hP a (List.mem_cons_self a P)))
      (fun p hp => hP p (List.mem_cons_of_mem a hp))

theorem shatter_ne (S : Substrate) (CA : ColorAlgebra)
    (cur : List (Geom × Color)) (g : Geom) (c : Color) (bm : BlendMode)
    (h : ∀ q ∈ cur, q.1.isEmpty = false) :
    ∀ q ∈ shatter_and_blend_with_color_alg S CA cur g c bm,
      q.1.isEmpty = false := by
  intro q hq
  simp only [shatter_and_blend_with_color_alg] at hq
  by_cases he : (fix_geom S (some g)).isEmpty = true
  · rw [if_pos he] at hq
    exact h q hq
  · rw [if_neg he] at hq
    by_cases hf : (cur.foldl (shatter_step S CA c bm)
        ([], fix_geom S (some g))).2.isEmpty = true
    · rw [if_neg (not_not_intro hf)] at hq
      exact shatter_loop_ne S CA c bm cur [] (fix_geom S (some g))
        (fun p hp => absurd hp (List.not_mem_nil p)) h q hq
    · rw [if_pos hf] at hq
      rcases List.mem_append.mp hq with h2 | h2
      · exact shatter_loop_ne S CA c bm cur [] (fix_geom S (some g))
          (fun p hp => absurd hp (List.not_mem_nil p)) h q h2
      · rw [List.mem_singleton] at h2
        subst h2
        exact Bool.eq_false_iff.mpr hf

/-- Every emitted intersection piece is non-empty by construction. -/
theorem inter_piece_ne {S : Substrate} {CA : ColorAlgebra} {pa pb x : Geom × Color}
    (hx : (let inter := safe_intersection S pa.1 pb.1
           if inter.isEmpty then none
           else some (inter, CA.and_color pa.2 pb.2)) = some x) :
    x.1.isEmpty = false := by
  simp only at hx
  by_cases hemp : (safe_intersection S pa.1 pb.1).isEmpty = true
  · rw [if_pos hemp] at hx
    exact absurd hx (by simp)
  · rw [if_neg hemp] at hx
    rw [← Option.some_inj.mp hx]
    exact Bool.eq_false_iff.mpr hemp

/-- Inversion of one emitted difference piece: it is the safe difference
of the minuend piece and the total subtrahend, and it is non-empty. -/
theorem diff_piece_eq {S : Substrate} {total : Geom} {pa x : Geom × Color}
    (hx : (let d := safe_difference S pa.1 total
           if d.isEmpty then none else some (d, pa.2)) = some x) :
    x.1 = safe_difference S pa.1 total ∧ x.1.isEmpty = false := by
  simp only at hx
  by_cases hemp : (safe_difference S pa.1 total).isEmpty = true
  · rw [if_pos hemp] at hx
    exact absurd hx (by simp)
  · rw [if_neg hemp] at hx
    rw [← Option.some_inj.mp hx]
    exact ⟨rfl, Bool.eq_false_iff.mpr hemp⟩

theorem gnode_sizeOf_pos (n : GNode) : 1 ≤ sizeOf n := by
  cases n with
  | prim gene => simp
  | op kind children =>
    simp only [GNode.op.sizeOf_spec]
    omega

theorem gnode_child_sizeOf {children : List GNode} {c : GNode} (kind : OpKind)
    (hc : c ∈ children) : sizeOf c < sizeOf (GNode.op kind children) := by
  have h1 := List.sizeOf_lt_of_mem hc
  have h2 : sizeOf (GNode.op kind children) = 1 + sizeOf kind + sizeOf children := by
    simp
  omega

/-- Fuel-indexed form of the non-emptiness invariant of process_node. -/
theorem process_node_ne_aux (S : Substrate) (CA : ColorAlgebra) :
    ∀ (N : ℕ) (n : GNode), sizeOf n ≤ N →
      ∀ p ∈ process_node S CA n, p.1.isEmpty = false := by
  intro N
  induction N with
  | zero =>
    intro n hn
    exact absurd hn (by have := gnode_sizeOf_pos n; omega)
  | succ N ih =>
    intro n hn p hp
    cases n with
    | prim gene =>
      simp only [process_node] at hp
      by_cases hge : (gene_to_shapely S gene).isEmpty = true
      · rw [if_pos hge] at hp
        exact absurd hp (List.not_mem_nil p)
      · rw [if_neg hge] at hp
        rw [List.mem_singleton] at hp
        subst hp
        exact Bool.eq_false_iff.mpr hge
    | op kind children =>
      have hch : ∀ r ∈ (process_children S CA children).filter (fun r => r ≠ []),
          ∀ q ∈ r, q.1.isEmpty = false := by
        intro r hr q hq
        have hr2 := List.mem_of_mem_filter hr
        rw [process_children_eq_map, List.mem_map] at hr2
        obtain ⟨c0, hc0, hEq⟩ := hr2
        subst hEq
        have hsz : sizeOf c0 ≤ N := by
          have := gnode_child_sizeOf kind hc0
          omega
        exact ih c0 hsz q hq
      simp only [process_node] at hp
      split at hp
      · exact absurd hp (List.not_mem_nil p)
      · rename_i first rest heq
        have hall : ∀ r ∈ first :: rest, ∀ q ∈ r, q.1.isEmpty = false := by
          rw [← heq]
          exact hch
        have hfirst := hall first (List.mem_cons_self first rest)
        split at hp
        · refine foldl_preserve (P := fun l => ∀ q ∈ l, q.1.isEmpty = false)
            (Q := fun _ => True) ?_ rest first hfirst (fun _ _ => trivial) p hp
          intro cur lst hcur _
          refine foldl_preserve (P := fun l => ∀ q ∈ l, q.1.isEmpty = false)
            (Q := fun _ => True) ?_ lst cur hcur (fun _ _ => trivial)
          intro cp pz hcp _
          exact shatter_ne S CA cp pz.1 pz.2 BlendMode.orMode hcp
        · refine foldl_preserve (P := fun l => ∀ q ∈ l, q.1.isEmpty = false)
            (Q := fun _ => True) ?_ rest first hfirst (fun _ _ => trivial) p hp
          intro cur lst _ _ q hq
          rw [List.mem_flatMap] at hq
          obtain ⟨pa, _, hq2⟩ := hq
          rw [List.mem_filterMap] at hq2
          obtain ⟨pb, _, hfx⟩ := hq2
          exact inter_piece_ne hfx
        · split at hp
          · exact hfirst p hp
          · split at hp
            · exact hfirst p hp
            · split at hp
              · exact hfirst p hp
              · rw [List.mem_filterMap] at hp
                obtain ⟨pa, _, hfx⟩ := hp
                exact (diff_piece_eq hfx).2

/-- Fuel-indexed form of the partition invariant of process_node. -/
theorem process_node_pdisj_aux {S : Substrate} (hS : Exact S) (CA : ColorAlgebra) :
    ∀ (N : ℕ) (n : GNode), sizeOf n ≤ N → PDisj (process_node S CA n) := by
  intro N
  induction N with
  | zero =>
    intro n hn
    exact absurd hn (by have := gnode_sizeOf_pos n; omega)
  | succ N ih =>
    intro n hn
    cases n with
    | prim gene =>
      simp only [process_node]
      by_cases hge : (gene_to_shapely S gene).isEmpty = true
      · rw [if_pos hge]
        exact List.Pairwise.nil
      · rw [if_neg hge]
        exact List.pairwise_singleton _ _
    | op kind children =>
      have hch : ∀ r ∈ (process_children S CA children).filter (fun r => r ≠ []),
          PDisj r := by
        intro r hr
        have hr2 := List.mem_of_mem_filter hr
        rw [process_children_eq_map, List.mem_map] at hr2
        obtain ⟨c0, hc0, hEq⟩ := hr2
        subst hEq
        have hsz : sizeOf c0 ≤ N := by
          have := gnode_child_sizeOf kind hc0
          omega
        exact ih c0 hsz
      simp only [process_node]
      split
      · exact List.Pairwise.nil
      · rename_i first rest heq
        have hall : ∀ r ∈ first :: rest, PDisj r := by
          rw [← heq]
          exact hch
        have hfirst := hall first (List.mem_cons_self first rest)
        split
        · refine foldl_preserve (P := PDisj) (Q := fun _ => True)
            ?_ rest first hfirst (fun _ _ => trivial)
          intro cur lst hcur _
          refine foldl_preserve (P := PDisj) (Q := fun _ => True)
            ?_ lst cur hcur (fun _ _ => trivial)
          intro cp pz hcp _
          exact shatter_pdisj hS CA pz.2 BlendMode.orMode cp pz.1 hcp
        · refine foldl_preserve (P := PDisj) (Q := PDisj)
            ?_ rest first hfirst
            (fun lst hlst => hall lst (List.mem_cons_of_mem first hlst))
          intro cur lst hcur hlst
          exact inter_step_pdisj hS CA cur lst hcur hlst
        · split
          · exact hfirst
          · split
            · exact hfirst
            · split
              · exact hfirst
              · refine List.Pairwise.filterMap _ ?_ hfirst
                intro pa pa2 hpp x hx x2 hx2
                rw [Option.mem_def] at hx hx2
                obtain ⟨he, _⟩ := diff_piece_eq hx
                obtain ⟨he2, _⟩ := diff_piece_eq hx2
                rw [he, he2, safe_difference_pts hS, safe_difference_pts hS]
                exact finset_inter_empty_mono Finset.sdiff_subset
                  Finset.sdiff_subset hpp

/-- The concrete substrate S0 satisfies the correctness assumption. -/
theorem exact_S0 : Exact S0 := by
  constructor
  · intro a b r hr
    rw [← Option.some_inj.mp hr]
    exact ⟨⟨rfl, rfl⟩, rfl⟩
  · intro a b
    rfl
  · intro a b r hr
    rw [← Option.some_inj.mp hr]
    exact ⟨⟨rfl, rfl⟩, rfl⟩
  · intro a b
    rfl
  · intro g r hr
    rw [← Option.some_inj.mp hr]
    exact ⟨⟨rfl, rfl⟩, rfl⟩
  · intro g
    rfl
  · intro l r hr
    rw [← Option.some_inj.mp hr]
    exact ⟨⟨rfl, rfl⟩, rfl⟩
  · intro l
    rfl

theorem foldl_hom_piecePts
    {g1 : List (Geom × Color) → List (Geom × Color) → List (Geom × Color)}
    {g2 : List (Finset ℕ × Color) → List (Finset ℕ × Color) → List (Finset ℕ × Color)}
    (h : ∀ a b, piecePts (g1 a b) = g2 (piecePts a) (piecePts b)) :
    ∀ (l : List (List (Geom × Color))) (a : List (Geom × Color)),
      piecePts (l.foldl g1 a) = (l.map piecePts).foldl g2 (piecePts a) := by
  intro l
  induction l with
  | nil =>
    intro a
    rfl
  | cons b l ih =>
    intro a
    rw [List.foldl_cons, List.map_cons, List.foldl_cons, ← h]
    exact ih _

/-- Observable content of the inner filterMap of the intersection branch. -/
theorem inter_inner_piecePts {S : Substrate} (hS : Exact S) (CA : ColorAlgebra)
    (pa : Geom × Color) :
    ∀ lst : List (Geom × Color),
      piecePts (lst.filterMap (fun pb =>
        let inter := safe_intersection S pa.1 pb.1
        if inter.isEmpty then none
        else some (inter, CA.and_color pa.2 pb.2)))
      = (piecePts lst).filterMap (fun pb =>
          if pa.1.pts ∩ pb.1 = ∅ then none
          else some (pa.1.pts ∩ pb.1, CA.and_color pa.2 pb.2)) := by
  intro lst
  induction lst with
  | nil => rfl
  | cons pb lst ih =>
    rw [piecePts_cons, List.filterMap_cons, List.filterMap_cons]
    by_cases hemp : (safe_intersection S pa.1 pb.1).isEmpty = true
    · have h2 : pa.1.pts ∩ pb.1.pts = ∅ := by
        rw [← safe_intersection_pts hS pa.1 pb.1]
        exact isEmpty_iff.mp hemp
      simp only [if_pos hemp, if_pos h2]
      exact ih
    · have h2 : ¬ pa.1.pts ∩ pb.1.pts = ∅ := by
        rw [← safe_intersection_pts hS pa.1 pb.1]
        exact fun h => hemp (isEmpty_iff.mpr h)
      simp only [if_neg hemp, if_neg h2, piecePts_cons]
      rw [ih, safe_intersection_pts hS pa.1 pb.1]

/-- Observable content of one cross-product step of the intersection
branch. -/
theorem inter_step_piecePts {S : Substrate} (hS : Exact S) (CA : ColorAlgebra)
    (cur lst : List (Geom × Color)) :
    piecePts (cur.flatMap (fun pa =>
      lst.filterMap (fun pb =>
        let inter := safe_intersection S pa.1 pb.1
        if inter.isEmpty then none
        else some (inter, CA.and_color pa.2 pb.2))))
    = spec_intersection_step CA.and_color (piecePts cur) (piecePts lst) := by
  induction cur with
  | nil => rfl
  | cons pa cur ih =>
    rw [List.flatMap_cons, piecePts_cons, piecePts_append]
    simp only [spec_intersection_step, List.flatMap_cons]
    rw [ih, inter_inner_piecePts hS CA pa lst]
    rfl

/-- C4: under a correct substrate, the intersection branch of process_node
folds pairwise exactly as worded in the spec: the accumulator starts as the
first non-empty child result, and each subsequent non-empty child result
is combined by the cross-product of pairwise region intersections, keeping
only non-empty intersections colored with and_color, dropping empty
pairs. -/
theorem intersection_branch_matches_spec {S : Substrate} (hS : Exact S)
    (CA : ColorAlgebra) (children : List GNode) :
    piecePts (process_node S CA (GNode.op OpKind.intersection children))
      = spec_intersection CA.and_color
          (((children.map (process_node S CA)).filter (fun r => r ≠ [])).map
            piecePts) := by
  rw [← process_children_eq_map]
  simp only [process_node]
  split
  · rename_i heq
    rw [heq]
    rfl
  · rename_i first rest heq
    rw [heq]
    simp only [spec_intersection, List.map_cons]
    exact foldl_hom_piecePts (fun a b => inter_step_piecePts hS CA a b) rest first

/-! Helper lemmas for the difference branch. -/

theorem filterMap_fst_of_ne :
    ∀ (lst : List (Geom × Color)), (∀ p ∈ lst, p.1.isEmpty = false) →
      lst.filterMap (fun p => if p.1.isEmpty then none else some p.1)
        = lst.map Prod.fst := by
  intro lst
  induction lst with
  | nil =>
    intro _
    rfl
  | cons p lst ih =>
    intro h
    rw [List.filterMap_cons, List.map_cons]
    have hp : ¬ p.1.isEmpty = true := by
      rw [h p (List.mem_cons_self p lst)]
      simp
    simp only [if_neg hp]
    rw [ih (fun q hq => h q (List.mem_cons_of_mem p hq))]

theorem unionPts_append (l1 l2 : List Geom) :
    unionPts (l1 ++ l2) = unionPts l1 ∪ unionPts l2 := by
  induction l1 with
  | nil => simp [unionPts]
  | cons g l1 ih =>
    simp only [unionPts, List.foldr_cons, List.cons_append] at *
    rw [ih, Finset.union_assoc]

theorem foldr_union_init (l : List (Finset ℕ × Color)) (X : Finset ℕ) :
    l.foldr (fun p acc => p.1 ∪ acc) X
      = l.foldr (fun p acc => p.1 ∪ acc) ∅ ∪ X := by
  induction l with
  | nil => simp
  | cons p l ih =>
    simp only [List.foldr_cons]
    rw [ih, Finset.union_assoc]

theorem unionPts_map_fst (lst : List (Geom × Color)) :
    unionPts (lst.map Prod.fst)
      = (piecePts lst).foldr (fun p acc => p.1 ∪ acc) ∅ := by
  induction lst with
  | nil => rfl
  | cons p lst ih =>
    simp only [List.map_cons, unionPts, List.foldr_cons, piecePts_cons] at *
    rw [ih]

theorem subtrahend_eq :
    ∀ (rest : List (List (Geom × Color))),
      (∀ lst ∈ rest, ∀ p ∈ lst, p.1.isEmpty = false) →
      unionPts (rest.flatMap (fun lst => lst.map Prod.fst))
        = ((rest.map piecePts).flatMap id).foldr (fun p acc => p.1 ∪ acc) ∅ := by
  intro rest
  induction rest with
  | nil =>
    intro _
    rfl
  | cons lst rest ih =>
    intro h
    rw [List.flatMap_cons, List.map_cons, List.flatMap_cons, unionPts_append,
      unionPts_map_fst, id, List.foldr_append,
      ih (fun l hl p hp => h l (List.mem_cons_of_mem lst hl) p hp),
      ← foldr_union_init]

theorem mem_unionPts {g : Geom} : ∀ {l : List Geom}, g ∈ l → g.pts ⊆ unionPts l := by
  intro l
  induction l with
  | nil =>
    intro h
    exact absurd h (List.not_mem_nil g)
  | cons x l ih =>
    intro h
    rcases List.mem_cons.mp h with h2 | h2
    · subst h2
      exact Finset.subset_union_left
    · exact (ih h2).trans Finset.subset_union_right

/-- Observable content of the final filterMap of the difference branch. -/
theorem diff_filterMap_piecePts {S : Substrate} (hS : Exact S) (T : Geom) :
    ∀ (first : List (Geom × Color)),
      piecePts (first.filterMap (fun pa =>
        let d := safe_difference S pa.1 T
        if d.isEmpty then none else some (d, pa.2)))
      = (piecePts first).filterMap (fun pa =>
          if pa.1 \ T.pts = ∅ then none else some (pa.1 \ T.pts, pa.2)) := by
  intro first
  induction first with
  | nil => rfl
  | cons pa first ih =>
    rw [piecePts_cons, List.filterMap_cons, List.filterMap_cons]
    by_cases hemp : (safe_difference S pa.1 T).isEmpty = true
    · have h2 : pa.1.pts \ T.pts = ∅ := by
        rw [← safe_difference_pts hS pa.1 T]
        exact isEmpty_iff.mp hemp
      simp only [if_pos hemp, if_pos h2]
      exact ih
    · have h2 : ¬ pa.1.pts \ T.pts = ∅ := by
        rw [← safe_difference_pts hS pa.1 T]
        exact fun h => hemp (isEmpty_iff.mpr h)
      simp only [if_neg hemp, if_neg h2, piecePts_cons]
      rw [ih, safe_difference_pts hS pa.1 T]

theorem spec_diff_empty_subtrahend :
    ∀ (ppl : List (Finset ℕ × Color)), (∀ p ∈ ppl, p.1 ≠ ∅) →
      ppl.filterMap (fun pa =>
        if pa.1 \ (∅ : Finset ℕ) = ∅ then none
        else some (pa.1 \ (∅ : Finset ℕ), pa.2)) = ppl := by
  intro ppl
  induction ppl with
  | nil =>
    intro _
    rfl
  | cons pa ppl ih =>
    intro h
    rw [List.filterMap_cons]
    have h1 : ¬ pa.1 \ (∅ : Finset ℕ) = ∅ := by
      rw [Finset.sdiff_empty]
      exact h pa (List.mem_cons_self pa ppl)
    simp only [if_neg h1]
    rw [ih (fun q hq => h q (List.mem_cons_of_mem pa hq)), Finset.sdiff_empty]

/-- C3 (amended): under a correct substrate, the difference branch of
process_node subtracts, from each piece of the partition of the first
child with a non-empty result, the plain geometric union of all regions
across the remaining non-empty child results (colors of subtracted
material are discarded), drops every piece whose difference becomes empty,
and leaves the colors of surviving pieces unchanged. -/
theorem difference_branch_spec {S : Substrate} (hS : Exact S)
    (CA : ColorAlgebra) (children : List GNode) :
    piecePts (process_node S CA (GNode.op OpKind.difference children))
      = spec_difference
          (((children.map (process_node S CA)).filter (fun r => r ≠ [])).map
            piecePts) := by
  rw [← process_children_eq_map]
  have hne : ∀ r ∈ (process_children S CA children).filter (fun r => r ≠ []),
      ∀ q ∈ r, q.1.isEmpty = false := by
    intro r hr q hq
    have hr2 := List.mem_of_mem_filter hr
    rw [process_children_eq_map, List.mem_map] at hr2
    obtain ⟨c0, _, hEq⟩ := hr2
    subst hEq
    exact process_node_ne_aux S CA (sizeOf c0) c0 le_rfl q hq
  have hnn : ∀ r ∈ (process_children S CA children).filter (fun r => r ≠ []),
      r ≠ [] := by
    intro r hr
    have h2 := (List.mem_filter.mp hr).2
    simpa using h2
  simp only [process_node]
  split
  · rename_i heq
    rw [heq]
    rfl
  · rename_i first rest heq
    rw [heq]
    have hallne : ∀ r ∈ first :: rest, ∀ q ∈ r, q.1.isEmpty = false := by
      rw [← heq]
      exact hne
    have hallnn : ∀ r ∈ first :: rest, r ≠ [] := by
      rw [← heq]
      exact hnn
    have hfirstne := hallne first (List.mem_cons_self first rest)
    have hrestne : ∀ lst ∈ rest, ∀ p ∈ lst, p.1.isEmpty = false :=
      fun lst hl => hallne lst (List.mem_cons_of_mem first hl)
    have hsubeq : (rest.flatMap (fun child_list => child_list.filterMap
        (fun p => if p.1.isEmpty then none else some p.1)))
        = rest.flatMap (fun lst => lst.map Prod.fst) := by
      rw [List.flatMap_def, List.flatMap_def]
      congr 1
      exact List.map_congr_left (fun lst hl => filterMap_fst_of_ne lst (hrestne lst hl))
    rw [hsubeq]
    simp only [spec_difference, List.map_cons]
    by_cases hrest : rest = []
    · subst hrest
      have hs0 : (([] : List (List (Geom × Color))).flatMap
          (fun lst => lst.map Prod.fst)) = [] := rfl
      rw [hs0, if_pos rfl]
      have hs1 : (((List.map piecePts ([] : List (List (Geom × Color)))).flatMap
          id).foldr (fun p acc => p.1 ∪ acc) ∅ : Finset ℕ) = ∅ := rfl
      rw [hs1]
      have hppne : ∀ p ∈ piecePts first, p.1 ≠ ∅ := by
        intro p hp
        rw [piecePts, List.mem_map] at hp
        obtain ⟨q, hq, hEq⟩ := hp
        rw [← hEq]
        exact isEmpty_false_iff.mp (hfirstne q hq)
      exact (spec_diff_empty_subtrahend (piecePts first) hppne).symm
    · obtain ⟨l0, rest2, hresteq⟩ : ∃ l0 rest2, rest = l0 :: rest2 := by
        cases rest with
        | nil => exact absurd rfl hrest
        | cons a b => exact ⟨a, b, rfl⟩
      have hl0mem : l0 ∈ rest := by
        rw [hresteq]
        exact List.mem_cons_self l0 rest2
      have hl0nn : l0 ≠ [] := hallnn l0 (List.mem_cons_of_mem first hl0mem)
      obtain ⟨q, l0t, hl0eq⟩ : ∃ q l0t, l0 = q :: l0t := by
        cases l0 with
        | nil => exact absurd rfl hl0nn
        | cons a b => exact ⟨a, b, rfl⟩
      have hqmem : q ∈ l0 := by
        rw [hl0eq]
        exact List.mem_cons_self q l0t
      have hqne : q.1.pts ≠ ∅ := isEmpty_false_iff.mp (hrestne l0 hl0mem q hqmem)
      have hqsub : q.1 ∈ rest.flatMap (fun lst => lst.map Prod.fst) := by
        rw [List.mem_flatMap]
        exact ⟨l0, hl0mem, List.mem_map_of_mem Prod.fst hqmem⟩
      have hsubne : ¬ rest.flatMap (fun lst => lst.map Prod.fst) = [] := by
        intro hcon
        rw [hcon] at hqsub
        exact absurd hqsub (List.not_mem_nil q.1)
      rw [if_neg hsubne]
      obtain ⟨tu, htu⟩ := Option.isSome_iff_exists.mp
        (hS.uu_some (rest.flatMap (fun lst => lst.map Prod.fst)))
      simp only [htu]
      have htotpts : (fix_geom S (some tu)).pts
          = unionPts (rest.flatMap (fun lst => lst.map Prod.fst)) :=
        (fix_geom_exact hS tu).2.trans (hS.uu_eq _ tu htu).2
      have hTne : ¬ (fix_geom S (some tu)).isEmpty = true := by
        rw [isEmpty_iff, htotpts]
        intro hcon
        have hsubset := mem_unionPts hqsub
        rw [hcon] at hsubset
        exact hqne (Finset.subset_empty.mp hsubset)
      rw [if_neg hTne]
      rw [diff_filterMap_piecePts hS (fix_geom S (some tu)) first, htotpts,
        subtrahend_eq rest hrestne]

theorem option_chain_eq (f1 : Option Geom) (f2 f3 : Geom → Option Geom)
    (g : Geom → Geom) (e : Geom) :
    (match f1 with
     | none => e
     | some g1 =>
       match f2 g1 with
       | none => e
       | some g2 =>
         match f3 g2 with
         | none => e
         | some g3 => g g3)
    = match (f1.bind f2).bind f3 with
      | none => e
      | some g3 => g g3 := by
  cases f1 with
  | none => rfl
  | some g1 =>
    cases hf2 : f2 g1 with
    | none =>
      simp only [Option.some_bind, hf2, Option.none_bind]
    | some g2 =>
      cases hf3 : f3 g2 with
      | none => simp only [Option.some_bind, hf2, hf3]
      | some g3 => simp only [Option.some_bind, hf2, hf3]

/-- C7 (amended): gene_to_shapely builds and repairs the canonical unit
shape, then applies scale, rotation and translation in sequence inside a
single failure guard (any transform failure yields the empty region), and
applies a single repair pass to the final transformed result. -/
theorem gene_to_shapely_single_guard (S : Substrate) (gene : PrimitiveGene) :
    gene_to_shapely S gene = amended_gene_to_shapely S gene := by
  simp only [gene_to_shapely, amended_gene_to_shapely]
  cases (match gene.kind with
     | GeneKind.disk => some S.diskBase
     | GeneKind.square => some S.squareBase
     | GeneKind.polygon => S.mkPolygon gene.polygon_vertices) with
  | none => rfl
  | some b =>
    exact option_chain_eq
      (S.scale (fix_geom S (some b)) gene.transform.sx gene.transform.sy)
      (fun g1 => S.rotate g1 gene.transform.theta)
      (fun g2 => S.translate g2 gene.transform.dx gene.transform.dy)
      (fun g3 => fix_geom S (some g3)) emptyPolygon

/-- C8 (amended): case behavior of fix_geom.  The function is total by
construction; a missing or empty input yields the empty region; a valid
non-empty polygonal input is returned as-is; any other non-empty input
(including invalid ones) goes through the zero-width buffer repair, whose
polygonal results are returned, whose collection results are collapsed to
the union of their polygonal members, and whose failures or other results
fall back to the empty region. -/
theorem fix_geom_case_spec (S : Substrate) (g r u : Geom) :
    fix_geom S none = emptyPolygon
    ∧ (g.isEmpty = true → fix_geom S (some g) = emptyPolygon)
    ∧ (g.valid = true → polygonal g.gtype = true → g.isEmpty = false →
        fix_geom S (some g) = g)
    ∧ (g.isEmpty = false → ¬ (g.valid = true ∧ polygonal g.gtype = true) →
        S.buffer0 g = none → fix_geom S (some g) = emptyPolygon)
    ∧ (g.isEmpty = false → ¬ (g.valid = true ∧ polygonal g.gtype = true) →
        S.buffer0 g = some r → r.isEmpty = false → polygonal r.gtype = true →
        fix_geom S (some g) = r)
    ∧ (g.isEmpty = false → ¬ (g.valid = true ∧ polygonal g.gtype = true) →
        S.buffer0 g = some r → r.isEmpty = false → polygonal r.gtype = false →
        r.gtype = GType.collection →
        r.members.filter (fun m => polygonal m.1) ≠ [] →
        S.unaryUnionParts (r.members.filter (fun m => polygonal m.1)) = some u →
        fix_geom S (some g) = u)
    ∧ (g.isEmpty = false → ¬ (g.valid = true ∧ polygonal g.gtype = true) →
        S.buffer0 g = some r → r.isEmpty = false → polygonal r.gtype = false →
        ¬ r.gtype = GType.collection → fix_geom S (some g) = emptyPolygon) := by
  refine ⟨rfl, ?_, ?_, ?_, ?_, ?_, ?_⟩
  · intro he
    simp only [fix_geom, if_pos he]
  · intro hv hp he
    have hne : ¬ g.isEmpty = true := by
      rw [he]
      simp
    simp only [fix_geom, if_neg hne, if_pos (⟨hv, hp, hne⟩ :
      g.valid = true ∧ polygonal g.gtype = true ∧ ¬ g.isEmpty = true)]
  · intro he hc hb
    have hne : ¬ g.isEmpty = true := by
      rw [he]
      simp
    have hc2 : ¬ (g.valid = true ∧ polygonal g.gtype = true ∧ ¬ g.isEmpty = true) :=
      fun h => hc ⟨h.1, h.2.1⟩
    simp only [fix_geom, if_neg hne, if_neg hc2, hb]
  · intro he hc hb hre hrp
    have hne : ¬ g.isEmpty = true := by
      rw [he]
      simp
    have hc2 : ¬ (g.valid = true ∧ polygonal g.gtype = true ∧ ¬ g.isEmpty = true) :=
      fun h => hc ⟨h.1, h.2.1⟩
    have hrne : ¬ r.isEmpty = true := by
      rw [hre]
      simp
    simp only [fix_geom, if_neg hne, if_neg hc2, hb, if_neg hrne, if_pos hrp,
      if_pos hrne]
  · intro he hc hb hre hrp hcoll hpne hu
    have hne : ¬ g.isEmpty = true := by
      rw [he]
      simp
    have hc2 : ¬ (g.valid = true ∧ polygonal g.gtype = true ∧ ¬ g.isEmpty = true) :=
      fun h => hc ⟨h.1, h.2.1⟩
    have hrne : ¬ r.isEmpty = true := by
      rw [hre]
      simp
    have hrp2 : ¬ polygonal r.gtype = true := by
      rw [hrp]
      simp
    simp only [fix_geom, if_neg hne, if_neg hc2, hb, if_neg hrne, if_neg hrp2,
      if_pos hcoll, if_neg hpne, hu]
  · intro he hc hb hre hrp hcoll
    have hne : ¬ g.isEmpty = true := by
      rw [he]
      simp
    have hc2 : ¬ (g.valid = true ∧ polygonal g.gtype = true ∧ ¬ g.isEmpty = true) :=
      fun h => hc ⟨h.1, h.2.1⟩
    have hrne : ¬ r.isEmpty = true := by
      rw [hre]
      simp
    have hrp2 : ¬ polygonal r.gtype = true := by
      rw [hrp]
      simp
    simp only [fix_geom, if_neg hne, if_neg hc2, hb, if_neg hrne, if_neg hrp2,
      if_neg hcoll]

/-- C10 (amended): for the safe difference, an empty right operand returns
the left operand itself unchanged provided the left operand is non-empty;
an empty left operand returns the canonical empty region (this check runs
first). -/
theorem safe_difference_identity_spec (S : Substrate) (a b : Geom) :
    (a.isEmpty = false → b.isEmpty = true → safe_difference S a b = a)
    ∧ (a.isEmpty = true → safe_difference S a b = emptyPolygon) := by
  constructor
  · intro ha hb
    have ha2 : ¬ a.isEmpty = true := by
      rw [ha]
      simp
    simp only [safe_difference, if_neg ha2, if_pos hb]
  · intro ha
    simp only [safe_difference, if_pos ha]

/-- C5: the safe binary geometric operations never propagate an exception:
when the raw intersection fails on the operands and again on the repaired
operands, safe_intersection returns the empty region, and when the raw
difference fails on the operands and again on the repaired operands,
safe_difference returns the unmodified left operand (totality of
evaluation itself is by construction of the embedding). -/
theorem safe_ops_fail_soft (S : Substrate) (a b : Geom)
    (ha : a.isEmpty = false) (hb : b.isEmpty = false)
    (h1 : S.inter a b = none)
    (h2 : S.inter (fix_geom S (some a)) (fix_geom S (some b)) = none)
    (h3 : S.diff a b = none)
    (h4 : S.diff (fix_geom S (some a)) (fix_geom S (some b)) = none) :
    safe_intersection S a b = emptyPolygon ∧ safe_difference S a b = a := by
  have ha2 : ¬ a.isEmpty = true := by
    rw [ha]
    simp
  have hb2 : ¬ b.isEmpty = true := by
    rw [hb]
    simp
  constructor
  · have hcond : ¬ (a.isEmpty = true ∨ b.isEmpty = true) := by
      intro h
      rcases h with h | h
      · exact ha2 h
      · exact hb2 h
    simp only [safe_intersection, if_neg hcond, h1, h2]
  · simp only [safe_difference, if_neg ha2, if_neg hb2, h3, h4]

/-- C6: evolve called with an empty selection, or with any index outside
the population range, yields the InvalidSelection condition and leaves the
population and the generation counter unchanged; a valid selection
increments the generation counter by exactly one. -/
theorem evolve_selection_contract
    (reproduce : List GNode → Finset ℕ → List GNode)
    (ad : BackendAdapter) (sel : Finset ℕ) :
    ((sel = ∅ ∨ ∃ i ∈ sel, ¬ i < ad.population.length) →
      (BackendAdapter.evolve reproduce ad sel).2
          = Except.error EvolveError.invalidSelection
      ∧ (BackendAdapter.evolve reproduce ad sel).1.population = ad.population
      ∧ (BackendAdapter.evolve reproduce ad sel).1.generation = ad.generation)
    ∧ (¬ (sel = ∅ ∨ ∃ i ∈ sel, ¬ i < ad.population.length) →
      (BackendAdapter.evolve reproduce ad sel).1.generation
        = ad.generation + 1) := by
  constructor
  · intro h
    have hred : stateEvolve reproduce ad.population sel
        = Except.error EvolveError.invalidSelection := by
      simp only [stateEvolve, if_pos h]
    refine ⟨?_, ?_, ?_⟩ <;> simp [BackendAdapter.evolve, hred]
  · intro h
    have hred : stateEvolve reproduce ad.population sel
        = Except.ok (reproduce ad.population sel) := by
      simp only [stateEvolve, if_neg h]
    simp [BackendAdapter.evolve, hred]

/-- C1: for every genome node, under a correct substrate, the pieces
returned by process_node form a true partition: any two distinct regions
in the output have an empty intersection.  Disjointness is established at
leaves and preserved by every shatter-and-blend fold step, every
intersection cross-product step and every difference step. -/
theorem partition_invariant {S : Substrate} (hS : Exact S) (CA : ColorAlgebra)
    (n : GNode) :
    (process_node S CA n).Pairwise (fun p q => p.1.pts ∩ q.1.pts = ∅) :=
  process_node_pdisj_aux hS CA (sizeOf n) n le_rfl

/-- C9: every (region, color) pair returned by process_node has a
non-empty region: empty leaves return the empty sequence, and each union,
intersection and difference branch appends a piece only after checking
its region is non-empty. -/
theorem evaluation_pieces_nonempty (S : Substrate) (CA : ColorAlgebra)
    (n : GNode) :
    ∀ p ∈ process_node S CA n, p.1.isEmpty = false :=
  process_node_ne_aux S CA (sizeOf n) n le_rfl

/-- C3 counterexample: at a difference node whose first child evaluates to
the empty partition while its second child does not, the code takes the
second child as minuend and returns its partition, whereas the claim
(minuend = the first child) would give the empty sequence; the node has at
least one non-empty child result, so the claim applies to it. -/
theorem difference_minuend_counterexample :
    (∃ r ∈ [GNode.prim degenerateGene, GNode.prim squareGene].map
        (process_node S0 CA0), r ≠ [])
    ∧ piecePts (process_node S0 CA0 (GNode.op OpKind.difference
          [GNode.prim degenerateGene, GNode.prim squareGene]))
        ≠ claim_difference_eval S0 CA0
            [GNode.prim degenerateGene, GNode.prim squareGene] := by
  decide

/-- C7 counterexample: a substrate on which gene_to_shapely and the
per-step-repair reading of the claim produce different regions for the
same gene, because the code runs rotation on the unrepaired scale output
while the claim reading repairs it first. -/
theorem gene_transform_repair_counterexample :
    gene_to_shapely S1 squareGene ≠ claim_gene_to_shapely S1 squareGene := by
  decide

/-- C8 counterexample: an invalid non-empty input is not mapped to the
empty region as the claim states: the zero-width buffer repair runs and
its non-empty polygonal result is returned. -/
theorem fix_geom_invalid_counterexample :
    invalidX.valid = false ∧ invalidX.isEmpty = false
    ∧ fix_geom S1 (some invalidX) ≠ emptyPolygon := by
  decide

/-- C10 counterexample: with an empty left operand of a different
geometry type than the canonical empty polygon, and an empty right
operand, safe_difference does not return the left operand itself, but the
canonical empty polygon. -/
theorem safe_difference_right_identity_counterexample :
    (Geom.mk GType.multiPolygon ∅ true []).isEmpty = true
    ∧ emptyPolygon.isEmpty = true
    ∧ safe_difference S0 (Geom.mk GType.multiPolygon ∅ true []) emptyPolygon
        ≠ Geom.mk GType.multiPolygon ∅ true [] := by
  decide

/-- Witness for C1 at a concrete union genome over the exact substrate. -/
theorem partition_invariant_witness :
    (process_node S0 CA0 (GNode.op OpKind.union
        [GNode.prim squareGene, GNode.prim diskGene])).Pairwise
      (fun p q => p.1.pts ∩ q.1.pts = ∅) :=
  partition_invariant exact_S0 CA0
    (GNode.op OpKind.union [GNode.prim squareGene, GNode.prim diskGene])

/-- Witness for C2 at a concrete partition and incoming piece. -/
theorem union_fold_matches_spec_witness :
    piecePts (shatter_and_blend_with_color_alg S0 CA0
        [(mkClean {1, 2}, ((0 : ℚ), (1 : ℚ), (0 : ℚ)))] (mkClean {0, 1})
        ((0 : ℚ), (0 : ℚ), (1 : ℚ)) BlendMode.orMode)
      = spec_shatter CA0.or_color
          (piecePts [(mkClean {1, 2}, ((0 : ℚ), (1 : ℚ), (0 : ℚ)))])
          (mkClean {0, 1}).pts ((0 : ℚ), (0 : ℚ), (1 : ℚ)) :=
  union_fold_matches_spec exact_S0 CA0
    [(mkClean {1, 2}, ((0 : ℚ), (1 : ℚ), (0 : ℚ)))] (mkClean {0, 1})
    ((0 : ℚ), (0 : ℚ), (1 : ℚ))

/-- Witness for the amended C3 at a concrete difference genome. -/
theorem difference_branch_spec_witness :
    piecePts (process_node S0 CA0 (GNode.op OpKind.difference
        [GNode.prim squareGene, GNode.prim diskGene]))
      = spec_difference ((([GNode.prim squareGene, GNode.prim diskGene].map
          (process_node S0 CA0)).filter (fun r => r ≠ [])).map piecePts) :=
  difference_branch_spec exact_S0 CA0
    [GNode.prim squareGene, GNode.prim diskGene]

/-- Witness for C4 at a concrete intersection genome. -/
theorem intersection_branch_matches_spec_witness :
    piecePts (process_node S0 CA0 (GNode.op OpKind.intersection
        [GNode.prim squareGene, GNode.prim diskGene]))
      = spec_intersection CA0.and_color
          ((([GNode.prim squareGene, GNode.prim diskGene].map
            (process_node S0 CA0)).filter (fun r => r ≠ [])).map piecePts) :=
  intersection_branch_matches_spec exact_S0 CA0
    [GNode.prim squareGene, GNode.prim diskGene]

/-- Witness for C5 against a substrate whose raw binary operations always
raise. -/
theorem safe_ops_fail_soft_witness :
    safe_intersection Sfail (mkClean {1}) (mkClean {2}) = emptyPolygon
    ∧ safe_difference Sfail (mkClean {1}) (mkClean {2}) = mkClean {1} :=
  safe_ops_fail_soft Sfail (mkClean {1}) (mkClean {2}) (by decide) (by decide)
    rfl rfl rfl rfl

/-- Witness for C6 at a concrete adapter state: the empty selection is
rejected and leaves population and generation unchanged, while a valid
selection increments the generation. -/
theorem evolve_selection_contract_witness :
    ((BackendAdapter.evolve reproduce0 adapter0 ∅).2
        = Except.error EvolveError.invalidSelection
      ∧ (BackendAdapter.evolve reproduce0 adapter0 ∅).1.population
          = adapter0.population
      ∧ (BackendAdapter.evolve reproduce0 adapter0 ∅).1.generation
          = adapter0.generation)
    ∧ (BackendAdapter.evolve reproduce0 adapter0 {0}).1.generation
        = adapter0.generation + 1 :=
  ⟨(evolve_selection_contract reproduce0 adapter0 ∅).1 (Or.inl rfl),
   (evolve_selection_contract reproduce0 adapter0 {0}).2 (by decide)⟩

/-- Witness for the amended C7: no hypotheses, instantiated for
illustration at the counterexample substrate and gene. -/
theorem gene_to_shapely_single_guard_witness :
    gene_to_shapely S1 squareGene = amended_gene_to_shapely S1 squareGene :=
  gene_to_shapely_single_guard S1 squareGene

/-- Witness for the amended C8: the valid non-empty polygonal case at a
concrete geometry. -/
theorem fix_geom_case_spec_witness :
    fix_geom S0 (some (mkClean {1})) = mkClean {1} :=
  (fix_geom_case_spec S0 (mkClean {1}) emptyPolygon emptyPolygon).2.2.1
    rfl rfl rfl

/-- Witness for C9 at a concrete leaf genome and piece. -/
theorem evaluation_pieces_nonempty_witness :
    (mkClean {1, 2}, ((0 : ℚ), (1 : ℚ), (0 : ℚ))).1.isEmpty = false :=
  evaluation_pieces_nonempty S0 CA0 (GNode.prim squareGene)
    (mkClean {1, 2}, ((0 : ℚ), (1 : ℚ), (0 : ℚ))) (by decide)

/-- Witness for the amended C10 at concrete geometries. -/
theorem safe_difference_identity_spec_witness :
    safe_difference S0 (mkClean {1}) emptyPolygon = mkClean {1}
    ∧ safe_difference S0 emptyPolygon (mkClean {1}) = emptyPolygon :=
  ⟨(safe_difference_identity_spec S0 (mkClean {1}) emptyPolygon).1 rfl rfl,
   (safe_difference_identity_spec S0 emptyPolygon (mkClean {1})).2 rfl⟩

end Art
